import Mathlib

/-!
Verification of the `payload-translations` i18n helper.

The definitions below are shallow embeddings of the TypeScript sources:
  * `src/translationHelper.ts` — translation resolver `t`, missing-key
    collector, debounced flush (`logMissingTranslations`);
  * `src/cli/scan.ts` — call-site scanner filter, `toCamelCase` normalizer,
    field generation and the `appendToFile` splice (the `--write` revision of
    the scan script is concatenated into `translationHelper.ts`);
  * `src/server/getTranslations.ts` — the translation-map supplier;
  * the dual-dialect interpolation engine, which the repository documents
    (README, spec) but whose implementation file is not present under `src/`;
    it is modelled from the spec where noted.

Strings are modelled as `String` / `List Char`; JavaScript numbers as `Rat`
(the examples only exercise exact decimal values); JS `Map`/`Set` as
insertion-ordered association lists, matching JS iteration order.
-/

/-- JS `\s` whitespace test (the ASCII/latin-1 members; the sources only ever
meet ASCII input). -/
def jsIsWs (c : Char) : Bool :=
  c.toNat = 32 || c.toNat = 9 || c.toNat = 10 || c.toNat = 13 ||
  c.toNat = 11 || c.toNat = 12 || c.toNat = 160

/-- ASCII letter-or-digit test, the character class `[a-zA-Z0-9]` used by the
scanner's normalizer. -/
def isAlnumAscii (c : Char) : Bool :=
  (97 ≤ c.toNat && c.toNat ≤ 122) || (65 ≤ c.toNat && c.toNat ≤ 90) ||
  (48 ≤ c.toNat && c.toNat ≤ 57)

/-- JS `\w` word-character class `[A-Za-z0-9_]`. -/
def isWordChar (c : Char) : Bool :=
  isAlnumAscii c || c = '_'

/-- JS `String.prototype.toLowerCase` on one character (ASCII range; all
inputs reaching the case maps in the sources are ASCII). -/
def lowerCh (c : Char) : Char :=
  if 65 ≤ c.toNat ∧ c.toNat ≤ 90 then Char.ofNat (c.toNat + 32) else c

/-- JS `String.prototype.toUpperCase` on one character (ASCII range). -/
def upperCh (c : Char) : Char :=
  if 97 ≤ c.toNat ∧ c.toNat ≤ 122 then Char.ofNat (c.toNat - 32) else c

def lowerAll (cs : List Char) : List Char := cs.map lowerCh

/-- Characters kept by `toCamelCase`'s first step
`replace(/[^a-zA-Z0-9\s]+/g, '')`: alphanumerics and whitespace survive. -/
def scanKeep (c : Char) : Bool := isAlnumAscii c || jsIsWs c

/-- Worker for `splitWs`: JS `str.split(/\s+/)`.  `skipping` records whether
the scan is inside a maximal whitespace run whose token has already been
emitted.  A leading or trailing run contributes an empty token, exactly as in
JS. -/
def splitWsGo : List Char → Bool → List Char → List (List Char)
  | cur, _, [] => [cur.reverse]
  | cur, false, c :: rest =>
    if jsIsWs c then cur.reverse :: splitWsGo [] true rest
    else splitWsGo (c :: cur) false rest
  | _, true, c :: rest =>
    if jsIsWs c then splitWsGo [] true rest
    else splitWsGo [c] false rest

/-- JS `str.split(/\s+/)` (step 2 of `toCamelCase`). -/
def splitWs (cs : List Char) : List (List Char) := splitWsGo [] false cs

/-- `lower.charAt(0).toUpperCase() + lower.slice(1)` from `toCamelCase`. -/
def upperFirstWord : List Char → List Char
  | [] => []
  | c :: rest => upperCh c :: rest

/-- The `.map((word, index) => ...)` step of `toCamelCase`: the first token is
fully lower-cased, every later token is lower-cased and then has its first
character upper-cased. -/
def mapWords : List (List Char) → List (List Char)
  | [] => []
  | w :: ws => lowerAll w :: ws.map (fun w' => upperFirstWord (lowerAll w'))

/-- `toCamelCase` from `src/cli/scan.ts` (identical copies appear in the
`--write` revision of the scan script), working on character lists. -/
def toCamelCaseL (cs : List Char) : List Char :=
  (mapWords (splitWs (cs.filter scanKeep))).flatten

/-- `toCamelCase` from `src/cli/scan.ts`: strip characters outside
`[a-zA-Z0-9\s]`, split on whitespace runs, lower-case the first token, title-
case the rest, concatenate. -/
def toCamelCase (s : String) : String := String.mk (toCamelCaseL s.data)

/-- First step of the resolver's per-segment normalization:
`k.replace(/\s+/g, '')` removes every whitespace character. -/
def stripWs (cs : List Char) : List Char := cs.filter (fun c => !jsIsWs c)

/-- Second step: `.replace(/^(.)/, m => m.toLowerCase())` lower-cases the
first character. -/
def lowerFirst : List Char → List Char
  | [] => []
  | c :: rest => lowerCh c :: rest

/-- Third step: `.replace(/\s(.)/g, m => m.toUpperCase())` upper-cases each
whitespace-plus-following-character pair (`.` does not match a line
terminator).  Because it runs after `stripWs` removed all whitespace, this
pass never fires on the resolver's inputs. -/
def wsUpper : List Char → List Char
  | [] => []
  | [c] => [c]
  | c1 :: c2 :: rest =>
    if jsIsWs c1 && !(c2 = '\n') && !(c2 = '\r') then
      upperCh c1 :: upperCh c2 :: wsUpper rest
    else c1 :: wsUpper (c2 :: rest)

/-- The resolver's per-segment key normalization (`camelKey` in
`createTranslationHelper`, `src/translationHelper.ts` lines 82-84). -/
def camelKey (s : String) : String :=
  String.mk (wsUpper (lowerFirst (stripWs s.data)))

-- ### Translation maps and the resolver `t`

/-- A value inside the `translations` object: either a translated string or a
one-level-nested mapping.  JS-object indexing of a plain string by a further
key is modelled as absent (numeric indices and prototype properties are
outside the spec'd data model). -/
inductive TrVal where
  | str : String → TrVal
  | node : List (String × TrVal) → TrVal

/-- A translations object: insertion-ordered association list. -/
abbrev TranslationMap := List (String × TrVal)

/-- JS property lookup `value[camelKey]` on an object. -/
def lookupKey : List (String × TrVal) → String → Option TrVal
  | [], _ => none
  | (k, v) :: rest, key => if k = key then some v else lookupKey rest key

/-- JS `key.split(sep)` for a single-character separator: split on every
occurrence, keeping empty pieces. -/
def splitChar (sep : Char) : List Char → List (List Char)
  | [] => [[]]
  | c :: rest =>
    if c = sep then [] :: splitChar sep rest
    else
      match splitChar sep rest with
      | t :: ts => (c :: t) :: ts
      | [] => [[c]]

/-- The resolver's lookup loop (`for (const k of keys) { ... }`): walk the
nested map one normalized segment at a time; as soon as a segment misses the
walk yields `none` (the loop's `break` on `undefined`). -/
def walk : Option TrVal → List String → Option TrVal
  | v, [] => v
  | some (TrVal.node m), k :: ks => walk (lookupKey m (camelKey k)) ks
  | some (TrVal.str _), _ :: _ => none
  | none, _ :: _ => none

/-- The value the resolver finds for `key`: `some s` exactly when the walk
ends on a string (the `typeof value === 'string'` check), else `none`. -/
def resolveValue (translations : TranslationMap) (key : String) : Option String :=
  match walk (some (TrVal.node translations)) ((splitChar '.' key.data).map String.mk) with
  | some (TrVal.str s) => some s
  | _ => none

/-- The translation function returned by `createTranslationHelper`
(`src/translationHelper.ts` lines 74-103), value behaviour: return the
resolved string if the walk ends on one, otherwise echo the raw key.  The
`context` argument only feeds the missing-key collector (see `tCollect`). -/
def t (translations : TranslationMap) (key context : String) : String :=
  match resolveValue translations key with
  | some s => s
  | none => key

-- ### Missing-key collector (`missingTranslations`, `logTimeout`,
-- `collectMissingTranslation`, `logMissingTranslations`)

/-- The module-level mutable state of `src/translationHelper.ts`: the
process-wide ledger `missingTranslations : Map<string, Set<string>>`
(insertion-ordered list of key/context-set pairs) and the shared debounce
timer `logTimeout`.  `timerGen` counts `setTimeout` calls so that re-arming is
observable; `pending` holds the id of the currently armed timer, if any. -/
structure CollectorState where
  missing : List (String × List String)
  timerGen : Nat
  pending : Option Nat
deriving DecidableEq

/-- JS `Set.prototype.add`: append if absent, keep insertion order. -/
def addContext (cs : List String) (ctx : String) : List String :=
  if cs.contains ctx then cs else cs ++ [ctx]

/-- The ledger update in `collectMissingTranslation`: create the key's
context set when absent, then add the context to it. -/
def ledgerAdd : List (String × List String) → String → String → List (String × List String)
  | [], key, ctx => [(key, [ctx])]
  | (k, cs) :: rest, key, ctx =>
    if k = key then (k, addContext cs ctx) :: rest
    else (k, cs) :: ledgerAdd rest key ctx

/-- `collectMissingTranslation(key, context)` (lines 55-64): record the miss
in the shared ledger, cancel any pending flush timer and arm a fresh one
(`clearTimeout` + `setTimeout`). -/
def collectMissingTranslation (key context : String) (st : CollectorState) : CollectorState :=
  CollectorState.mk (ledgerAdd st.missing key context) (st.timerGen + 1) (some st.timerGen)

/-- One field snippet emitted by the debounced flush: the generated `name:`,
the `label:` (the raw key) and the contexts listed in the `// Used in:`
comment.  The surrounding literal template text is fixed in the source. -/
structure FieldSnippet where
  name : String
  label : String
  contexts : List String
deriving DecidableEq

/-- Step `key.toLowerCase().replace(/[^a-z0-9]+/g, '_')` of the flush's field
name generation: each maximal run of non-(lower-alphanumeric) characters
becomes a single underscore.  `inRun` tracks whether the previous character
already started such a run. -/
def underscoreGo : Bool → List Char → List Char
  | _, [] => []
  | inRun, c :: rest =>
    if (97 ≤ c.toNat && c.toNat ≤ 122) || (48 ≤ c.toNat && c.toNat ≤ 57) then
      c :: underscoreGo false rest
    else if inRun then underscoreGo true rest
    else '_' :: underscoreGo true rest

/-- `.replace(/^_+|_+$/g, '')`: drop leading and trailing underscore runs. -/
def trimUnderscores (cs : List Char) : List Char :=
  ((cs.dropWhile (fun c => c = '_')).reverse.dropWhile (fun c => c = '_')).reverse

/-- Worker for `.replace(/_+/g, '_')`: `inRun` is true while inside an
underscore run whose first underscore was already emitted. -/
def collapseGo : Bool → List Char → List Char
  | _, [] => []
  | inRun, c :: rest =>
    if c = '_' then
      if inRun then collapseGo true rest else '_' :: collapseGo true rest
    else c :: collapseGo false rest

/-- `.replace(/_+/g, '_')`: collapse underscore runs to one underscore. -/
def collapseUnderscores (cs : List Char) : List Char := collapseGo false cs

/-- The field name generated by `logMissingTranslations` (lines 31-36):
lower-case, underscore for non-alphanumeric runs, trim and collapse
underscores — a snake_case identifier. -/
def snakeName (key : String) : String :=
  String.mk (collapseUnderscores (trimUnderscores (underscoreGo false (lowerAll key.data))))

/-- `logMissingTranslations()` (lines 23-53), the debounced flush: an empty
ledger emits nothing and leaves the state alone; otherwise one field snippet
per ledger entry is rendered (name = `snakeName key`, label = the raw key,
comment = the observed contexts in insertion order) and the ledger is
cleared. -/
def logMissingTranslations (st : CollectorState) :
    Option (List FieldSnippet) × CollectorState :=
  if st.missing = [] then (none, st)
  else
    (some (st.missing.map (fun e => FieldSnippet.mk (snakeName e.1) e.1 e.2)),
     CollectorState.mk [] st.timerGen st.pending)

/-- The full behaviour of the helper returned by `createTranslationHelper`:
the returned string together with the state effect on the process-wide
collector.  Collection happens only on a miss and only in development mode
(`process.env.NODE_ENV === 'development'`, the `dev` flag). -/
def tCollect (dev : Bool) (translations : TranslationMap) (key context : String)
    (st : CollectorState) : String × CollectorState :=
  match resolveValue translations key with
  | some s => (s, st)
  | none => (key, if dev then collectMissingTranslation key context st else st)

-- ### Scanner call-site filter (`scanFiles`, `src/cli/scan.ts` lines 32-48)

/-- The left brace / right brace characters, named to keep string literals
brace-free. -/
def lbrace : Char := Char.ofNat 123

def rbrace : Char := Char.ofNat 125

/-- The keep test applied to each regex-extracted key: the key is pushed when
it includes no left-brace character, includes no percent character, and its
length is strictly below 100 (`key.length < 100` in the source). -/
def keepKey (key : String) : Bool :=
  !(key.data.contains lbrace) && !(key.data.contains '%') &&
  decide (key.length < 100)

/-- The per-line match loop of `scanFiles`: each regex match contributes its
captured key and optional captured context (`match[1]`, `match[2]`); a match
whose key passes `keepKey` is pushed with context default `'Unknown'`
(`match[2] || 'Unknown'`).  The regex engine itself is abstracted as the list
of captures. -/
def scanLineMatches (ms : List (String × Option String)) : List (String × String) :=
  ms.filterMap (fun m => if keepKey m.1 then some (m.1, m.2.getD "Unknown") else none)

-- ### Declarations-file splice (`appendToFile`, lines 477-522)

/-- Try to read one literal character. -/
def lit1 (c : Char) : List Char → Option (List Char)
  | [] => none
  | x :: rest => if x = c then some rest else none

/-- Try to read a literal word character by character. -/
def litStr : List Char → List Char → Option (List Char)
  | [], cs => some cs
  | _ :: _, [] => none
  | l :: ls, c :: cs => if c = l then litStr ls cs else none

/-- `\s+`: at least one whitespace character, maximal munch. -/
def ws1 : List Char → Option (List Char)
  | [] => none
  | c :: rest => if jsIsWs c then some (rest.dropWhile jsIsWs) else none

/-- `\w+`: at least one word character, maximal munch. -/
def word1 : List Char → Option (List Char)
  | [] => none
  | c :: rest => if isWordChar c then some (rest.dropWhile isWordChar) else none

/-- `[:=]`: one colon or equals sign. -/
def colonOrEq : List Char → Option (List Char)
  | [] => none
  | c :: rest => if c = ':' || c = '=' then some rest else none

/-- Does the regex `export\s+const\s+\w+\s*[:=]\s*\[` match at the start of
`cs`?  (Its character classes are pairwise disjoint at every boundary, so
maximal munch is equivalent to backtracking.) -/
def matchExportAt (cs : List Char) : Bool :=
  (do
    let r1 ← litStr "export".data cs
    let r2 ← ws1 r1
    let r3 ← litStr "const".data r2
    let r4 ← ws1 r3
    let r5 ← word1 r4
    let r6 ← colonOrEq (r5.dropWhile jsIsWs)
    lit1 '[' (r6.dropWhile jsIsWs)).isSome

/-- `content.match(...)`: index of the first position where the export-array
pattern matches. -/
def findExportFrom (i : Nat) : List Char → Option Nat
  | [] => none
  | c :: rest =>
    if matchExportAt (c :: rest) then some i else findExportFrom (i + 1) rest

def findExport (cs : List Char) : Option Nat := findExportFrom 0 cs

/-- The bracket-depth scan of `appendToFile` (lines 489-505): starting at the
match index, count `[` / `]`; the insert position is the index of the `]`
that returns the count to zero after the array has been entered.  The count
is an `Int`, as in JS. -/
def findInsertPos (i : Nat) (depth : Int) (inArray : Bool) : List Char → Option Nat
  | [] => none
  | c :: rest =>
    if c = '[' then findInsertPos (i + 1) (depth + 1) true rest
    else if c = ']' then
      if inArray && depth - 1 = 0 then some i
      else findInsertPos (i + 1) (depth - 1) inArray rest
    else findInsertPos (i + 1) depth inArray rest

/-- The two failure conditions `appendToFile` reports on standard error. -/
inductive SpliceError where
  | noArray
  | noClose
deriving DecidableEq

/-- `appendToFile(filePath, newFields)` (lines 477-522) as a pure function of
the file content: locate the exported array literal, find its closing
bracket, and splice `newFields + '\n'` in just before it; each failure leaves
the content alone and reports which condition occurred. -/
def appendToFile (content newFields : String) : Except SpliceError String :=
  match findExport content.data with
  | none => Except.error SpliceError.noArray
  | some i =>
    match findInsertPos i 0 false (content.data.drop i) with
    | none => Except.error SpliceError.noClose
    | some pos =>
      Except.ok (String.mk (content.data.take pos) ++ newFields ++ "\n" ++
                 String.mk (content.data.drop pos))

/-- The file-system effect of `appendToFile`: on success the file holds the
spliced content, on failure the original bytes are untouched and the error is
surfaced. -/
def runAppend (content newFields : String) : String × Option SpliceError :=
  match appendToFile content newFields with
  | Except.ok updated => (updated, none)
  | Except.error e => (content, some e)

-- ### Translation-map supplier (`getTranslations`, `src/server/getTranslations.ts`)

/-- `getTranslations` (lines 42-80), restricted to the translations object it
hands the resolver: the fetched map on success, and on any fetch failure the
empty map `emptyTranslations` — the failure is logged, never rethrown. -/
def getTranslations (fetchResult : Except String TranslationMap) : TranslationMap :=
  match fetchResult with
  | Except.ok m => m
  | Except.error _ => []

-- ### Interpolation engine
-- Modelled from the spec: the dual-dialect `interpolate(template, variables,
-- locale)` engine (spec section 4.2) is documented by the repository's README
-- but its implementation file is not present under `src/`; every definition
-- in this section follows the spec's wording.

/-- Modelled from the spec: one scalar interpolation value — a string or a JS
number (represented exactly as a rational; the spec's examples only use exact
decimal values). -/
inductive Scalar where
  | str : String → Scalar
  | num : Rat → Scalar

/-- Modelled from the spec: truncation toward zero, the `%d`/`%i`
conversion. -/
def ratTrunc (q : Rat) : Int := q.num.tdiv q.den

/-- Fractional decimal digits of `num/den` by long division, with enough fuel
for any terminating binary-float expansion. -/
def fracDigits : Nat → Nat → Nat → List Char
  | 0, _, _ => []
  | fuel + 1, num, den =>
    if num = 0 then []
    else Nat.digitChar (num * 10 / den) :: fracDigits fuel (num * 10 % den) den

/-- Modelled from the spec: JS number-to-string on exact decimals — sign,
integer part, and the fractional digits when there are any. -/
def ratToString (q : Rat) : String :=
  let n := q.num.natAbs
  let sign := if q.num < 0 then "-" else ""
  if q.den = 1 then sign ++ toString n
  else sign ++ toString (n / q.den) ++ "." ++ String.mk (fracDigits 1100 (n % q.den) q.den)

/-- Modelled from the spec: stringification of a scalar (`%s` leaves strings
as-is, numbers render as JS numbers). -/
def stringifyScalar : Scalar → String
  | Scalar.str s => s
  | Scalar.num q => ratToString q

/-- Is `c` one of the positional specifier letters `s d i f u`? -/
def isSpec (c : Char) : Bool :=
  c = 's' || c = 'd' || c = 'i' || c = 'f' || c = 'u'

/-- Modelled from the spec: rendering of one consumed value under a specifier
letter — `%s` stringifies as-is, `%d`/`%i` truncate toward zero then
stringify, `%f`/`%u` stringify without truncation. -/
def renderSpec (c : Char) (v : Scalar) : List Char :=
  if c = 'd' || c = 'i' then
    match v with
    | Scalar.num q => (toString (ratTrunc q)).data
    | Scalar.str s => s.data
  else (stringifyScalar v).data

/-- Modelled from the spec: the positional (sprintf) scan — left-to-right,
each two-character placeholder `%s` `%d` `%i` `%f` `%u` consumes the next
unused value (one shared counter); a placeholder with no remaining value is
left in the output unchanged; a percent before anything else is left
unchanged and scanning resumes at the next character. -/
def sprintfGo : List Char → List Scalar → List Char
  | [], _ => []
  | '%' :: c :: rest, vals =>
    if isSpec c then
      match vals with
      | [] => '%' :: c :: sprintfGo rest []
      | v :: vs => renderSpec c v ++ sprintfGo rest vs
    else '%' :: sprintfGo (c :: rest) vals
  | c :: rest, vals => c :: sprintfGo rest vals

/-- Modelled from the spec: the positional dialect of `interpolate`. -/
def sprintfInterp (tmpl : String) (vals : List Scalar) : String :=
  String.mk (sprintfGo tmpl.data vals)

/-- Lookup in the named-variables mapping. -/
def lookupNamed (m : List (String × Scalar)) (k : String) : Option Scalar :=
  match m with
  | [] => none
  | (k', v) :: rest => if k' = k then some v else lookupNamed rest k

/-- Trim surrounding whitespace from a segment. -/
def trimWs (cs : List Char) : List Char :=
  ((cs.dropWhile jsIsWs).reverse.dropWhile jsIsWs).reverse

/-- Find the matching close brace: given the characters after an open brace,
return the enclosed content and the remainder after the matching close
brace. -/
def findClose (depth : Nat) : List Char → Option (List Char × List Char)
  | [] => none
  | c :: rest =>
    if c = rbrace then
      if depth = 0 then some ([], rest)
      else match findClose (depth - 1) rest with
        | some (inner, after) => some (c :: inner, after)
        | none => none
    else if c = lbrace then
      match findClose (depth + 1) rest with
      | some (inner, after) => some (c :: inner, after)
      | none => none
    else
      match findClose depth rest with
      | some (inner, after) => some (c :: inner, after)
      | none => none

/-- Modelled from the spec: the CLDR cardinal plural category of a count
under a locale.  The spec's examples use English-style rules (exactly one is
`one`, everything else `other`); other locales fall back to the same
default. -/
def pluralCategory (locale : String) (q : Rat) : String :=
  match locale with
  | _ => if q = 1 then "one" else "other"

/-- Modelled from the spec: the regex scan over `\w+\s*` followed by a braced
form body (`[^}]*`) collecting the plural form definitions `word ... body`.
A failed match resumes one character later, as a regex engine would. -/
def parseFormsGo : Nat → List Char → List (String × List Char)
  | 0, _ => []
  | _ + 1, [] => []
  | fuel + 1, c :: rest =>
    if isWordChar c then
      let w := c :: rest.takeWhile isWordChar
      let afterWs := (rest.dropWhile isWordChar).dropWhile jsIsWs
      match afterWs with
      | b :: rest2 =>
        if b = lbrace then
          let content := rest2.takeWhile (fun x => !(x = rbrace))
          match rest2.dropWhile (fun x => !(x = rbrace)) with
          | _ :: rest4 => (String.mk w, content) :: parseFormsGo fuel rest4
          | [] => parseFormsGo fuel rest
        else parseFormsGo fuel rest
      | [] => []
    else parseFormsGo fuel rest

/-- Modelled from the spec: inside a selected plural form, every hash
character is replaced by the stringified count. -/
def replaceHash (count : List Char) (cs : List Char) : List Char :=
  cs.flatMap (fun c => if c = '#' then count else [c])

/-- Modelled from the spec: evaluation of one brace-delimited expression of
the named dialect, given its inner content.  One comma-free segment is a
variable substitution (undefined variables leave the expression unchanged); a
second segment `plural` selects a plural form of the remaining text by the
CLDR category of the named count, falling back to the `other` form and then
to the literal remaining text; any other keyword leaves the expression
unchanged. -/
def processExpr (m : List (String × Scalar)) (locale : String) (inner : List Char) :
    List Char :=
  let unchanged := lbrace :: inner ++ [rbrace]
  match splitChar ',' inner with
  | [only] =>
    match lookupNamed m (String.mk (trimWs only)) with
    | some v => (stringifyScalar v).data
    | none => unchanged
  | s0 :: s1 :: restSegs =>
    if String.mk (trimWs s1) = "plural" then
      match lookupNamed m (String.mk (trimWs s0)) with
      | some (Scalar.num q) =>
        let rest := (restSegs.intersperse [',']).flatten
        let forms := parseFormsGo (rest.length + 1) rest
        let countStr := (ratToString q).data
        match forms.find? (fun f => f.1 = pluralCategory locale q) with
        | some f => replaceHash countStr f.2
        | none =>
          match forms.find? (fun f => f.1 = "other") with
          | some f => replaceHash countStr f.2
          | none => rest
      | _ => unchanged
    else unchanged
  | [] => unchanged

/-- Modelled from the spec: the named-dialect scan — copy characters until an
open brace, find its matching close brace, evaluate the enclosed expression
and continue after it; an unmatched open brace is copied through.  `fuel`
bounds the recursion (the scan consumes at least one character per step). -/
def namedGo (m : List (String × Scalar)) (locale : String) :
    Nat → List Char → List Char
  | 0, cs => cs
  | _ + 1, [] => []
  | fuel + 1, c :: rest =>
    if c = lbrace then
      match findClose 0 rest with
      | some (inner, after) => processExpr m locale inner ++ namedGo m locale fuel after
      | none => c :: namedGo m locale fuel rest
    else c :: namedGo m locale fuel rest

/-- Modelled from the spec: the named (ICU-style) dialect of
`interpolate`. -/
def namedInterp (tmpl : String) (m : List (String × Scalar)) (locale : String) : String :=
  String.mk (namedGo m locale tmpl.data.length tmpl.data)

/-- Modelled from the spec: the shape of the `variables` argument — an
ordered list of scalars or a named mapping. -/
inductive Variables where
  | positional : List Scalar → Variables
  | named : List (String × Scalar) → Variables

/-- Modelled from the spec: `interpolate(template, variables, locale)` with
the dialect dispatch on the shape of `variables` — an ordered list selects
the positional (sprintf) dialect, a named mapping selects the named
dialect. -/
def interpolate (tmpl : String) (vars : Variables) (locale : String) : String :=
  match vars with
  | Variables.positional vals => sprintfInterp tmpl vals
  | Variables.named m => namedInterp tmpl m locale

/-- Full lower-casing of a string (used to characterize repeated
normalization). -/
def lowerStr (s : String) : String := String.mk (lowerAll s.data)

/-- A 100-character key, the length-boundary input of the scanner filter. -/
def longKey : String := String.mk (List.replicate 100 'a')

/-- The collector state after two misses recorded through two helpers created
over different translations objects: both writes land in the one process-wide
state. -/
def afterTwoMisses (tm1 tm2 : TranslationMap) (k1 k2 c1 c2 : String)
    (st : CollectorState) : CollectorState :=
  (tCollect true tm2 k2 c2 ((tCollect true tm1 k1 c1 st).2)).2

-- sanity examples (claim-level facts are the named theorems below)
example : toCamelCase "Login Button" = "loginButton" := by decide
example : toCamelCase "loginButton" = "loginbutton" := by decide
example : camelKey "Login Button" = "loginButton" := by decide
example : camelKey "login button" = "loginbutton" := by decide
example : t [("submit", TrVal.str "Indienen")] "Submit" "Forms" = "Indienen" := by decide
example : t [] "Submit" "Forms" = "Submit" := by decide
example : "abcd".length = 4 := by decide
example : snakeName "Login Button" = "login_button" := by decide
example : keepKey "Submit" = true := by decide
example : runAppend "const x = 1" "F" = ("const x = 1", some SpliceError.noArray) := by decide
example : runAppend "export const a = [1,2" "F" = ("export const a = [1,2", some SpliceError.noClose) := by decide
example : runAppend "export const a = []" "F" = ("export const a = [F\n]", none) := by decide
example :
    interpolate "Hello %s, you have %d new messages"
      (Variables.positional [Scalar.str "John", Scalar.num (Rat.mk' 59 10)]) "en" =
    "Hello John, you have 5 new messages" := by decide
example : interpolate "Welcome %s" (Variables.positional [Scalar.str "Ann"]) "en" = "Welcome Ann" := by decide
example :
    namedInterp (String.mk (lbrace :: "name".data ++ [rbrace]))
      [("name", Scalar.str "John")] "en" = "John" := by decide
example : sprintfInterp "save %x %s" [Scalar.str "a"] = "save %x a" := by decide
example : sprintfInterp "a %s b %s" [Scalar.str "x"] = "a x b %s" := by decide

-- ## Helper lemmas

theorem walk_none : ∀ ks, walk none ks = none
  | [] => rfl
  | _ :: _ => rfl

theorem charOfNat_toNat (n : Nat) (h : n < 55296) : (Char.ofNat n).toNat = n := by
  unfold Char.ofNat
  rw [dif_pos (Or.inl h)]
  rfl

theorem lowerCh_alnum (c : Char) (h : isAlnumAscii c = true) :
    isAlnumAscii (lowerCh c) = true := by
  unfold lowerCh
  split
  · rename_i hr
    have hv : (Char.ofNat (c.toNat + 32)).toNat = c.toNat + 32 :=
      charOfNat_toNat _ (by omega)
    simp only [isAlnumAscii, hv]
    simp only [Bool.or_eq_true, Bool.and_eq_true, decide_eq_true_eq]
    omega
  · exact h

theorem upperCh_alnum (c : Char) (h : isAlnumAscii c = true) :
    isAlnumAscii (upperCh c) = true := by
  unfold upperCh
  split
  · rename_i hr
    have hv : (Char.ofNat (c.toNat - 32)).toNat = c.toNat - 32 :=
      charOfNat_toNat _ (by omega)
    simp only [isAlnumAscii, hv]
    simp only [Bool.or_eq_true, Bool.and_eq_true, decide_eq_true_eq]
    omega
  · exact h

theorem alnum_not_ws (c : Char) (h : isAlnumAscii c = true) : jsIsWs c = false := by
  simp only [isAlnumAscii, Bool.or_eq_true, Bool.and_eq_true, decide_eq_true_eq] at h
  simp only [jsIsWs, Bool.or_eq_false_iff, decide_eq_false_iff_not]
  omega

theorem alnum_scanKeep (c : Char) (h : isAlnumAscii c = true) : scanKeep c = true := by
  simp [scanKeep, h]

/-- Every character of every token produced by the whitespace split is an
alphanumeric character, provided the input mixes only alphanumerics and
whitespace and the accumulator holds alphanumerics. -/
theorem splitWsGo_alnum :
    ∀ (l acc : List Char) (flag : Bool),
      (∀ c ∈ acc, isAlnumAscii c = true) →
      (∀ c ∈ l, isAlnumAscii c = true ∨ jsIsWs c = true) →
      ∀ w ∈ splitWsGo acc flag l, ∀ c ∈ w, isAlnumAscii c = true := by
  intro l
  induction l with
  | nil =>
    intro acc flag hacc _ w hw c hc
    simp only [splitWsGo, List.mem_singleton] at hw
    subst hw
    exact hacc c (List.mem_reverse.mp hc)
  | cons x rest ih =>
    intro acc flag hacc hl w hw c hc
    have hx := hl x (List.mem_cons_self x rest)
    have hrest : ∀ c ∈ rest, isAlnumAscii c = true ∨ jsIsWs c = true :=
      fun c hc => hl c (List.mem_cons_of_mem x hc)
    cases flag with
    | false =>
      by_cases hws : jsIsWs x = true
      · simp only [splitWsGo, hws, if_true, List.mem_cons] at hw
        rcases hw with hw | hw
        · subst hw
          exact hacc c (List.mem_reverse.mp hc)
        · exact ih [] true (by simp) hrest w hw c hc
      · simp only [splitWsGo, hws, if_false, Bool.false_eq_true] at hw
        have hxa : isAlnumAscii x = true := by
          rcases hx with h | h
          · exact h
          · exact absurd h hws
        refine ih (x :: acc) false ?_ hrest w hw c hc
        intro d hd
        rcases List.mem_cons.mp hd with hd | hd
        · subst hd; exact hxa
        · exact hacc d hd
    | true =>
      by_cases hws : jsIsWs x = true
      · simp only [splitWsGo, hws, if_true] at hw
        exact ih [] true (by simp) hrest w hw c hc
      · simp only [splitWsGo, hws, if_false, Bool.false_eq_true] at hw
        have hxa : isAlnumAscii x = true := by
          rcases hx with h | h
          · exact h
          · exact absurd h hws
        refine ih [x] false ?_ hrest w hw c hc
        intro d hd
        rcases List.mem_cons.mp hd with hd | hd
        · subst hd; exact hxa
        · simp at hd

/-- Splitting a whitespace-free list yields the one token
`acc.reverse ++ l`. -/
theorem splitWsGo_no_ws :
    ∀ (l acc : List Char), (∀ c ∈ l, jsIsWs c = false) →
      splitWsGo acc false l = [acc.reverse ++ l] := by
  intro l
  induction l with
  | nil => intro acc _; simp [splitWsGo]
  | cons x rest ih =>
    intro acc hl
    have hx : jsIsWs x = false := hl x (List.mem_cons_self x rest)
    simp only [splitWsGo, hx, Bool.false_eq_true, if_false]
    rw [ih (x :: acc) (fun c hc => hl c (List.mem_cons_of_mem x hc))]
    simp

/-- Characters of `mapWords` output are case-mapped token characters, so
all-alphanumeric tokens stay all-alphanumeric. -/
theorem mapWords_alnum (ws : List (List Char))
    (h : ∀ w ∈ ws, ∀ c ∈ w, isAlnumAscii c = true) :
    ∀ w' ∈ mapWords ws, ∀ c ∈ w', isAlnumAscii c = true := by
  cases ws with
  | nil => intro w' hw'; simp [mapWords] at hw'
  | cons w0 wrest =>
    intro w' hw' c hc
    simp only [mapWords, List.mem_cons, List.mem_map] at hw'
    rcases hw' with hw' | ⟨w1, hw1, hw1'⟩
    · subst hw'
      rcases List.mem_map.mp hc with ⟨d, hd, hd'⟩
      subst hd'
      exact lowerCh_alnum d (h w0 (List.mem_cons_self w0 wrest) d hd)
    · subst hw1'
      have hw1a : ∀ c ∈ w1, isAlnumAscii c = true :=
        h w1 (List.mem_cons_of_mem w0 hw1)
      cases w1 with
      | nil => simp [upperFirstWord, lowerAll] at hc
      | cons d drest =>
        simp only [lowerAll, List.map_cons, upperFirstWord, List.mem_cons] at hc
        rcases hc with hc | hc
        · subst hc
          exact upperCh_alnum _ (lowerCh_alnum d (hw1a d (List.mem_cons_self d drest)))
        · rcases List.mem_map.mp hc with ⟨e, he, he'⟩
          subst he'
          exact lowerCh_alnum e (hw1a e (List.mem_cons_of_mem d he))

/-- Every character of a normalized key is an ASCII alphanumeric. -/
theorem toCamelCaseL_alnum (cs : List Char) :
    ∀ c ∈ toCamelCaseL cs, isAlnumAscii c = true := by
  intro c hc
  unfold toCamelCaseL at hc
  rcases List.mem_flatten.mp hc with ⟨w', hw', hcw⟩
  refine mapWords_alnum _ ?_ w' hw' c hcw
  intro w hw d hd
  refine splitWsGo_alnum (cs.filter scanKeep) [] false (by simp) ?_ w hw d hd
  intro e he
  have hkeep : scanKeep e = true := (List.mem_filter.mp he).2
  simpa [scanKeep, Bool.or_eq_true] using hkeep

/-- On an all-alphanumeric input the normalizer is exactly full
lower-casing. -/
theorem toCamelCaseL_of_alnum (ys : List Char)
    (h : ∀ c ∈ ys, isAlnumAscii c = true) :
    toCamelCaseL ys = lowerAll ys := by
  unfold toCamelCaseL
  rw [List.filter_eq_self.mpr (fun c hc => alnum_scanKeep c (h c hc))]
  unfold splitWs
  rw [splitWsGo_no_ws ys [] (fun c hc => alnum_not_ws c (h c hc))]
  simp [mapWords]

theorem addContext_mem_self (cs : List String) (ctx : String) : ctx ∈ addContext cs ctx := by
  unfold addContext
  split
  · rename_i h; exact List.mem_of_elem_eq_true h
  · exact List.mem_append_right _ (List.mem_singleton.mpr rfl)

theorem addContext_mem_mono (cs : List String) (ctx x : String) (h : x ∈ cs) :
    x ∈ addContext cs ctx := by
  unfold addContext
  split
  · exact h
  · exact List.mem_append_left _ h

/-- `ledgerAdd` records the new context under the key. -/
theorem ledgerAdd_mem_self :
    ∀ (l : List (String × List String)) (key ctx : String),
      ∃ cs, (key, cs) ∈ ledgerAdd l key ctx ∧ ctx ∈ cs := by
  intro l key ctx
  induction l with
  | nil => exact ⟨[ctx], List.mem_singleton.mpr rfl, List.mem_singleton.mpr rfl⟩
  | cons e rest ih =>
    obtain ⟨k, cs⟩ := e
    by_cases hk : k = key
    · subst hk
      simp only [ledgerAdd, if_pos rfl]
      exact ⟨addContext cs ctx, List.mem_cons_self _ _, addContext_mem_self cs ctx⟩
    · simp only [ledgerAdd, if_neg hk]
      obtain ⟨cs', hm, hc⟩ := ih
      exact ⟨cs', List.mem_cons_of_mem _ hm, hc⟩

/-- `ledgerAdd` preserves every previously recorded (key, context) pair. -/
theorem ledgerAdd_mem_mono :
    ∀ (l : List (String × List String)) (key ctx k0 : String) (cs0 : List String)
      (x : String), (k0, cs0) ∈ l → x ∈ cs0 →
      ∃ cs, (k0, cs) ∈ ledgerAdd l key ctx ∧ x ∈ cs := by
  intro l key ctx k0 cs0 x hmem hx
  induction l with
  | nil => simp at hmem
  | cons e rest ih =>
    obtain ⟨k, cs⟩ := e
    rcases List.mem_cons.mp hmem with he | he
    · injection he with he1 he2
      subst he1; subst he2
      by_cases hk : k0 = key
      · subst hk
        simp only [ledgerAdd, if_pos rfl]
        exact ⟨addContext cs0 ctx, List.mem_cons_self _ _, addContext_mem_mono cs0 ctx x hx⟩
      · simp only [ledgerAdd, if_neg hk]
        exact ⟨cs0, List.mem_cons_self _ _, hx⟩
    · by_cases hk : k = key
      · subst hk
        simp only [ledgerAdd, if_pos rfl]
        exact ⟨cs0, List.mem_cons_of_mem _ he, hx⟩
      · simp only [ledgerAdd, if_neg hk]
        obtain ⟨cs', hm, hc⟩ := ih he
        exact ⟨cs', List.mem_cons_of_mem _ hm, hc⟩

-- ## Claim theorems

/-- Claim C1: `interpolate` dispatches on the shape of the variables — an
ordered list selects the positional (sprintf) dialect and a named mapping
selects the named dialect — and on the template
`"Hello %s, you have %d new messages"` with values `["John", 5.9]` the
positional dialect produces `"Hello John, you have 5 new messages"`, `%d`
truncating 5.9 toward zero. -/
theorem interpolate_dialect_dispatch :
    (∀ tmpl vals locale,
      interpolate tmpl (Variables.positional vals) locale = sprintfInterp tmpl vals) ∧
    (∀ tmpl m locale,
      interpolate tmpl (Variables.named m) locale = namedInterp tmpl m locale) ∧
    interpolate "Hello %s, you have %d new messages"
      (Variables.positional [Scalar.str "John", Scalar.num (Rat.mk' 59 10)]) "en" =
      "Hello John, you have 5 new messages" :=
  ⟨fun _ _ _ => rfl, fun _ _ _ => rfl, by decide⟩

/-- Claim C2 (refuting evaluation): the scanner normalizes
`"login button"` to the field name `loginButton`, but the resolver's segment
normalization produces `loginbutton` — its space-capitalization pass runs
after all whitespace has been removed — so a value stored under
`loginButton` is found by the lookup key `"Login Button"` yet NOT by
`"login button"`, contradicting the claimed bit-identical round-trip. -/
theorem camelKey_toCamelCase_mismatch :
    toCamelCase "login button" = "loginButton" ∧
    camelKey "login button" = "loginbutton" ∧
    camelKey "login button" ≠ toCamelCase "login button" ∧
    t [("loginButton", TrVal.str "Anmelden")] "Login Button" "Auth" = "Anmelden" ∧
    t [("loginButton", TrVal.str "Anmelden")] "login button" "Auth" = "login button" := by
  refine ⟨by decide, by decide, by decide, by decide, by decide⟩

/-- Claim C3 (counterexample): the normalizer is not idempotent — it maps
`"Login Button"` to `loginButton`, and `loginButton` to `loginbutton`,
because a renormalized single token is fully lower-cased. -/
theorem toCamelCase_not_idempotent :
    toCamelCase (toCamelCase "Login Button") ≠ toCamelCase "Login Button" := by decide

/-- Claim C3 (amended): renormalizing a normalized key fully lower-cases it:
`normalize (normalize x) = lowerStr (normalize x)` for every string; hence
idempotence holds exactly when the normalized form has no uppercase letter
(e.g. single-token inputs), not for all strings. -/
theorem toCamelCase_twice_lowercases (s : String) :
    toCamelCase (toCamelCase s) = lowerStr (toCamelCase s) :=
  congrArg String.mk (toCamelCaseL_of_alnum _ (toCamelCaseL_alnum s.data))

/-- Claim C4: resolution by `t` is total — for every translations object, key
and context it returns a string, a missing translation degrades to the raw
key, and on the empty translations object `t "Submit"` echoes
`"Submit"`. -/
theorem t_missing_returns_key :
    (∀ tm key ctx, resolveValue tm key = none → t tm key ctx = key) ∧
    (∀ ctx, t [] "Submit" ctx = "Submit") := by
  constructor
  · intro tm key ctx h
    unfold t
    rw [h]
  · intro ctx; rfl

theorem t_missing_returns_key_witness :
    resolveValue [("home", TrVal.str "Home")] "missing" = none ∧
    t [("home", TrVal.str "Home")] "missing" "Ctx" = "missing" :=
  ⟨by decide, t_missing_returns_key.1 [("home", TrVal.str "Home")] "missing" "Ctx" (by decide)⟩

/-- Claim C5 (counterexample): a key resolving to the empty string is NOT
treated as a miss — `t` returns the empty string itself, not the key. -/
theorem t_empty_string_counterexample :
    t [("submit", TrVal.str "")] "Submit" "Forms" = "" ∧
    t [("submit", TrVal.str "")] "Submit" "Forms" ≠ "Submit" := by
  exact ⟨by decide, by decide⟩

/-- Claim C5 (amended): `t` returns any resolved string value as-is, the
empty string included (`typeof value === 'string'` admits `""`); only when no
string value resolves does `t` fall back to the key. -/
theorem t_returns_any_resolved_string :
    ∀ tm key ctx v, resolveValue tm key = some v → t tm key ctx = v := by
  intro tm key ctx v h
  unfold t
  rw [h]

theorem t_returns_any_resolved_string_witness :
    resolveValue [("submit", TrVal.str "")] "Submit" = some "" ∧
    t [("submit", TrVal.str "")] "Submit" "Forms" = "" :=
  ⟨by decide, t_returns_any_resolved_string [("submit", TrVal.str "")] "Submit" "Forms" "" (by decide)⟩

/-- Claim C6 (counterexample): a key of exactly 100 characters contains
neither a brace nor a percent character and does not exceed 100 characters,
yet the scanner skips it — the filter demands a length strictly below
100. -/
theorem scan_filter_length100_counterexample :
    lbrace ∉ longKey.data ∧
    '%' ∉ longKey.data ∧
    longKey.length ≤ 100 ∧
    (longKey, "Unknown") ∉ scanLineMatches [(longKey, none)] := by
  refine ⟨by decide, by decide, by decide, by decide⟩

/-- Claim C6 (amended): a regex-matched key is kept if and only if it
contains neither a brace nor a percent character and is strictly shorter than
100 characters; keys of length 100 or more are skipped. -/
theorem scan_filter_keeps_iff :
    ∀ (ms : List (String × Option String)) (key : String) (copt : Option String),
      (key, copt) ∈ ms →
      ((key, copt.getD "Unknown") ∈ scanLineMatches ms ↔
        (lbrace ∉ key.data ∧ '%' ∉ key.data ∧ key.length < 100)) := by
  intro ms key copt hmem
  constructor
  · intro hout
    rcases List.mem_filterMap.mp hout with ⟨⟨k', c'⟩, _, hf⟩
    by_cases hk : keepKey k' = true
    · simp only [hk, if_true, Option.some_inj] at hf
      injection hf with hf1 hf2
      subst hf1
      have hk' : (lbrace ∉ k'.data ∧ '%' ∉ k'.data) ∧ k'.length < 100 := by
        simpa [keepKey, Bool.and_eq_true, Bool.not_eq_true'] using hk
      exact ⟨hk'.1.1, hk'.1.2, hk'.2⟩
    · simp only [Bool.not_eq_true] at hk
      simp [hk] at hf
  · intro ⟨h1, h2, h3⟩
    have hk : keepKey key = true := by
      simp only [keepKey, Bool.and_eq_true, Bool.not_eq_true']
      exact ⟨⟨by simpa using h1, by simpa using h2⟩, by simpa using h3⟩
    exact List.mem_filterMap.mpr ⟨(key, copt), hmem, by simp [hk]⟩

theorem scan_filter_keeps_iff_witness :
    (("Submit", (none : Option String)) ∈ [(("Submit" : String), (none : Option String))]) ∧
    ((("Submit", "Unknown") ∈ scanLineMatches [("Submit", none)]) ↔
      (lbrace ∉ ("Submit" : String).data ∧ '%' ∉ ("Submit" : String).data ∧
       ("Submit" : String).length < 100)) :=
  ⟨List.mem_singleton.mpr rfl,
   scan_filter_keeps_iff [("Submit", none)] "Submit" none (List.mem_singleton.mpr rfl)⟩

/-- Claim C7: when the declarations file holds no exported array literal, or
the bracket-depth scan finds no matching close bracket, the splice fails, the
file content is left byte-identical, and the specific failure condition is
reported. -/
theorem appendToFile_failure_keeps_content :
    ∀ content newFields : String,
      (findExport content.data = none →
        runAppend content newFields = (content, some SpliceError.noArray)) ∧
      (∀ i, findExport content.data = some i →
        findInsertPos i 0 false (content.data.drop i) = none →
        runAppend content newFields = (content, some SpliceError.noClose)) := by
  intro content newFields
  constructor
  · intro h
    unfold runAppend appendToFile
    rw [h]
  · intro i h1 h2
    simp only [runAppend, appendToFile, h1, h2]

theorem appendToFile_failure_keeps_content_witness :
    (findExport ("const x = 1" : String).data = none ∧
     runAppend "const x = 1" "F" = ("const x = 1", some SpliceError.noArray)) ∧
    (findExport ("export const a = [1," : String).data = some 0 ∧
     findInsertPos 0 0 false (("export const a = [1," : String).data.drop 0) = none ∧
     runAppend "export const a = [1," "F" = ("export const a = [1,", some SpliceError.noClose)) :=
  ⟨⟨by decide, (appendToFile_failure_keeps_content "const x = 1" "F").1 (by decide)⟩,
   ⟨by decide, by decide,
    (appendToFile_failure_keeps_content "export const a = [1," "F").2 0 (by decide) (by decide)⟩⟩

/-- Claim C8 (counterexample): the flush renders the ledger entry for
`"Login Button"` with field name `login_button` — the snake_case scheme —
which differs from `toCamelCase "Login Button" = "loginButton"`, the
section-4.1 camelCase normalizer named by the claim. -/
theorem flush_snake_case_counterexample :
    (logMissingTranslations (CollectorState.mk [("Login Button", ["LoginForm"])] 0 none)).1 =
      some [FieldSnippet.mk "login_button" "Login Button" ["LoginForm"]] ∧
    toCamelCase "Login Button" = "loginButton" ∧
    ("login_button" : String) ≠ "loginButton" := by
  refine ⟨by decide, by decide, by decide⟩

/-- Claim C8 (amended): flushing a non-empty ledger renders exactly one field
snippet per entry — field name the snake_case normalization of the key
(`snakeName`), label the raw key, comment the observed contexts — and clears
the ledger; flushing an empty ledger emits nothing and changes nothing. -/
theorem flush_renders_ledger :
    (∀ st : CollectorState, st.missing ≠ [] →
      logMissingTranslations st =
        (some (st.missing.map (fun e => FieldSnippet.mk (snakeName e.1) e.1 e.2)),
         CollectorState.mk [] st.timerGen st.pending)) ∧
    (∀ st : CollectorState, st.missing = [] →
      logMissingTranslations st = (none, st)) := by
  constructor
  · intro st h
    unfold logMissingTranslations
    rw [if_neg h]
  · intro st h
    unfold logMissingTranslations
    rw [if_pos h]

theorem flush_renders_ledger_witness :
    ((CollectorState.mk [("Submit", ["Forms"])] 3 (some 2)).missing ≠ [] ∧
     logMissingTranslations (CollectorState.mk [("Submit", ["Forms"])] 3 (some 2)) =
       (some [FieldSnippet.mk "submit" "Submit" ["Forms"]],
        CollectorState.mk [] 3 (some 2))) ∧
    ((CollectorState.mk [] 3 (some 2)).missing = [] ∧
     logMissingTranslations (CollectorState.mk [] 3 (some 2)) =
       (none, CollectorState.mk [] 3 (some 2))) :=
  ⟨⟨by decide, flush_renders_ledger.1 (CollectorState.mk [("Submit", ["Forms"])] 3 (some 2)) (by decide)⟩,
   ⟨rfl, flush_renders_ledger.2 (CollectorState.mk [] 3 (some 2)) rfl⟩⟩

/-- Claim C9: on fetch failure the supplier substitutes the empty mapping
instead of propagating the failure, and against the empty mapping the
resolver treats every key as a miss, echoing it. -/
theorem getTranslations_failure_empty :
    (∀ msg, getTranslations (Except.error msg) = []) ∧
    (∀ key ctx, t [] key ctx = key) := by
  constructor
  · intro msg; rfl
  · intro key ctx
    unfold t resolveValue
    cases h : (splitChar '.' key.data).map String.mk with
    | nil => rfl
    | cons s ss =>
      simp only [walk, lookupKey, walk_none]

theorem getTranslations_failure_empty_example :
    t (getTranslations (Except.error "fetch failed")) "Submit" "Forms" = "Submit" := by decide

/-- Claim C10: helpers created over different translations objects write into
the one module-level ledger and share the one debounce timer: after a miss
through one helper and a miss through another, both keys sit in the shared
ledger with their contexts, the timer has been re-armed by the second record,
and a single flush renders snippets for both and clears the ledger. -/
theorem shared_ledger_single_flush :
    ∀ (tm1 tm2 : TranslationMap) (k1 k2 c1 c2 : String) (st : CollectorState),
      resolveValue tm1 k1 = none → resolveValue tm2 k2 = none →
      (∃ cs, (k1, cs) ∈ (afterTwoMisses tm1 tm2 k1 k2 c1 c2 st).missing ∧ c1 ∈ cs) ∧
      (∃ cs, (k2, cs) ∈ (afterTwoMisses tm1 tm2 k1 k2 c1 c2 st).missing ∧ c2 ∈ cs) ∧
      (afterTwoMisses tm1 tm2 k1 k2 c1 c2 st).pending = some (st.timerGen + 1) ∧
      (afterTwoMisses tm1 tm2 k1 k2 c1 c2 st).timerGen = st.timerGen + 2 ∧
      (∃ out,
        (logMissingTranslations (afterTwoMisses tm1 tm2 k1 k2 c1 c2 st)).1 = some out ∧
        (∃ s ∈ out, s.label = k1 ∧ c1 ∈ s.contexts) ∧
        (∃ s ∈ out, s.label = k2 ∧ c2 ∈ s.contexts) ∧
        ((logMissingTranslations (afterTwoMisses tm1 tm2 k1 k2 c1 c2 st)).2).missing = []) := by
  intro tm1 tm2 k1 k2 c1 c2 st h1 h2
  have hred : afterTwoMisses tm1 tm2 k1 k2 c1 c2 st =
      CollectorState.mk (ledgerAdd (ledgerAdd st.missing k1 c1) k2 c2)
        (st.timerGen + 1 + 1) (some (st.timerGen + 1)) := by
    simp only [afterTwoMisses, tCollect, h1, h2, collectMissingTranslation, if_true]
  rw [hred]
  obtain ⟨cs1, hcs1, hc1⟩ := ledgerAdd_mem_self st.missing k1 c1
  obtain ⟨cs1', hcs1', hc1'⟩ :=
    ledgerAdd_mem_mono (ledgerAdd st.missing k1 c1) k2 c2 k1 cs1 c1 hcs1 hc1
  obtain ⟨cs2, hcs2, hc2⟩ := ledgerAdd_mem_self (ledgerAdd st.missing k1 c1) k2 c2
  have hne : ledgerAdd (ledgerAdd st.missing k1 c1) k2 c2 ≠ [] :=
    List.ne_nil_of_mem hcs1'
  refine ⟨⟨cs1', hcs1', hc1'⟩, ⟨cs2, hcs2, hc2⟩, rfl, rfl, ?_⟩
  refine ⟨(ledgerAdd (ledgerAdd st.missing k1 c1) k2 c2).map
    (fun e => FieldSnippet.mk (snakeName e.1) e.1 e.2), ?_, ?_, ?_, ?_⟩
  · simp only [logMissingTranslations]
    rw [if_neg hne]
  · exact ⟨FieldSnippet.mk (snakeName k1) k1 cs1',
      List.mem_map.mpr ⟨(k1, cs1'), hcs1', rfl⟩, rfl, hc1'⟩
  · exact ⟨FieldSnippet.mk (snakeName k2) k2 cs2,
      List.mem_map.mpr ⟨(k2, cs2), hcs2, rfl⟩, rfl, hc2⟩
  · simp only [logMissingTranslations]
    rw [if_neg hne]

theorem shared_ledger_single_flush_witness :
    resolveValue [] "Submit" = none ∧
    resolveValue [("home", TrVal.str "Home")] "Cancel" = none ∧
    ((∃ cs, ("Submit", cs) ∈
        (afterTwoMisses [] [("home", TrVal.str "Home")] "Submit" "Cancel" "LoginForm" "Modal"
          (CollectorState.mk [] 0 none)).missing ∧ "LoginForm" ∈ cs) ∧
     (∃ cs, ("Cancel", cs) ∈
        (afterTwoMisses [] [("home", TrVal.str "Home")] "Submit" "Cancel" "LoginForm" "Modal"
          (CollectorState.mk [] 0 none)).missing ∧ "Modal" ∈ cs) ∧
     (afterTwoMisses [] [("home", TrVal.str "Home")] "Submit" "Cancel" "LoginForm" "Modal"
        (CollectorState.mk [] 0 none)).pending = some 1 ∧
     (afterTwoMisses [] [("home", TrVal.str "Home")] "Submit" "Cancel" "LoginForm" "Modal"
        (CollectorState.mk [] 0 none)).timerGen = 2 ∧
     (∃ out,
       (logMissingTranslations
         (afterTwoMisses [] [("home", TrVal.str "Home")] "Submit" "Cancel" "LoginForm" "Modal"
           (CollectorState.mk [] 0 none))).1 = some out ∧
       (∃ s ∈ out, s.label = "Submit" ∧ "LoginForm" ∈ s.contexts) ∧
       (∃ s ∈ out, s.label = "Cancel" ∧ "Modal" ∈ s.contexts) ∧
       ((logMissingTranslations
         (afterTwoMisses [] [("home", TrVal.str "Home")] "Submit" "Cancel" "LoginForm" "Modal"
           (CollectorState.mk [] 0 none))).2).missing = [])) :=
  ⟨by decide, by decide,
   shared_ledger_single_flush [] [("home", TrVal.str "Home")] "Submit" "Cancel" "LoginForm"
     "Modal" (CollectorState.mk [] 0 none) (by decide) (by decide)⟩
